import Mathlib

/-!
Verification of the harmonic-analysis pipeline of the music-analysis-toolkit
repository (backend/app/utils.py and backend/app/main.py), as a shallow
embedding over exact rational arithmetic.

Floating-point values of the source are modelled as `ℚ`.  Cosine
similarities and Pearson correlations involve square roots, so a score
`d / (√n)` (with `n > 0` the product of squared norms) is represented by
the pair `(d, n) : ℚ × ℚ`; strict comparisons between two such scores are
encoded sign-by-sign with cross-multiplied squares (`cmpLtB`), which is
proved equivalent to the real-number comparison (`cmpLtB_iff`).  All
embedding definitions are computable.
-/

namespace MusicToolkit

/-- Pitch classes 0..11, with wrap-around arithmetic (semitone indices). -/
abbrev PC := Fin 12

/-- `PITCH_CLASSES` from utils.py: the standard 12 pitch class names. -/
def PITCH_CLASSES : List String :=
  ["C", "C#", "D", "D#", "E", "F"] ++ ["F#", "G", "G#", "A", "A#", "B"]

/-- Name of a pitch class (index into `PITCH_CLASSES`). -/
def pcName (i : PC) : String := PITCH_CLASSES.getD i.val "C"

/-- Sum of squares of a 12-bin vector (the squared Euclidean norm
`np.linalg.norm(v) ** 2`). -/
def sumSq (v : PC → ℚ) : ℚ := ∑ i, (v i) ^ 2

/-- Dot product of two 12-bin vectors (`np.dot`). -/
def dotQ (v w : PC → ℚ) : ℚ := ∑ i, v i * w i

/-- Rotation of a pitch-class vector by `k` semitones upward:
bin `i` of the rotated vector holds bin `i - k` of the original. -/
def rotv (k : PC) (v : PC → ℚ) : PC → ℚ := fun i => v (i - k)

/-- The twelve pitch classes in enumeration order
(`enumerate(PITCH_CLASSES)` in utils.py). -/
def allPC : List PC := [0, 1, 2, 3, 4, 5, 6, 7, 8, 9, 10, 11]

/-! ### guess_mode (utils.py lines 108-169)

The source iterates over the 7 music21 scale classes in the order
MajorScale, MinorScale, DorianScale, PhrygianScale, LydianScale,
MixolydianScale, LocrianScale.  The music21 collaborator supplies the
pitch-class set of each scale; these are the standard diatonic interval
patterns relative to the tonic, embedded below. -/

/-- Interval patterns (semitones above the tonic) of the 7 scale classes,
in the iteration order of the source loop. -/
def scalePattern : Fin 7 → List PC
  | 0 => [0, 2, 4, 5, 7, 9, 11]   -- Major
  | 1 => [0, 2, 3, 5, 7, 8, 10]   -- Minor (natural)
  | 2 => [0, 2, 3, 5, 7, 9, 10]   -- Dorian
  | 3 => [0, 1, 3, 5, 7, 8, 10]   -- Phrygian
  | 4 => [0, 2, 4, 6, 7, 9, 11]   -- Lydian
  | 5 => [0, 2, 4, 5, 7, 9, 10]   -- Mixolydian
  | 6 => [0, 1, 3, 5, 6, 8, 10]   -- Locrian

/-- Mode display names: `scale_class.__name__.replace('Scale', '')`. -/
def modeName : Fin 7 → String
  | 0 => "Major"
  | 1 => "Minor"
  | 2 => "Dorian"
  | 3 => "Phrygian"
  | 4 => "Lydian"
  | 5 => "Mixolydian"
  | 6 => "Locrian"

/-- `SCALE_WEIGHTS.get(interval, DEFAULT_WEIGHT)` from utils.py:
tonic 1.0, dominant 0.6, major/minor mediant 0.4, default 0.3. -/
def SCALE_WEIGHTS (i : PC) : ℚ :=
  if i = 0 then 1
  else if i = 7 then 3/5
  else if i = 4 then 2/5
  else if i = 3 then 2/5
  else 3/10

/-- The weighted scale template built in the source loop: entry `pc` is
the weight of the interval from the tonic when `pc` is in the scale,
and 0 otherwise. -/
def templateVec (t : PC) (s : Fin 7) : PC → ℚ := fun i =>
  if (i - t) ∈ scalePattern s then SCALE_WEIGHTS (i - t) else 0

/-- A candidate of the guess_mode loop: a tonic and a scale-class index. -/
abbrev Cand := PC × Fin 7

/-- The 84 candidates in source iteration order: tonic outer
(`enumerate(PITCH_CLASSES)`), scale class inner. -/
def candList : List Cand :=
  allPC.flatMap fun t => (List.finRange 7).map fun s => (t, s)

/-- `f"{tonic_name} {mode}"`. -/
def candName (c : Cand) : String := pcName c.1 ++ " " ++ modeName c.2

/-- Dot product of the input with the (unnormalized) template of `c`. -/
def dotT (v : PC → ℚ) (c : Cand) : ℚ := dotQ v (templateVec c.1 c.2)

/-- Squared norm of the template of `c`. -/
def tSq (c : Cand) : ℚ := sumSq (templateVec c.1 c.2)

/-- Exact encoding of `d1 / √n1 < d2 / √n2` for `n1, n2 > 0`:
sign analysis plus cross-multiplied squares. -/
def cmpLtB (d1 n1 d2 n2 : ℚ) : Bool :=
  if 0 ≤ d1 then
    if 0 ≤ d2 then decide (d1 ^ 2 * n2 < d2 ^ 2 * n1) else false
  else
    if 0 ≤ d2 then true else decide (d2 ^ 2 * n1 < d1 ^ 2 * n2)

/-- Exact encoding of `-1 < d / √n` for `n > 0` (comparison of a cosine
similarity with the initial best score `-1.0` of the source loop). -/
def gtNegOneB (d n : ℚ) : Bool :=
  decide (0 ≤ d) || decide (d ^ 2 < n)

/-- Encoded `sim(a) < sim(b)` where
`sim(c) = dotT v c / (‖v‖ * ‖template c‖)`. -/
def simLtB (v : PC → ℚ) (a b : Cand) : Bool :=
  cmpLtB (dotT v a) (sumSq v * tSq a) (dotT v b) (sumSq v * tSq b)

/-- Encoded `sim(c) > -1.0` (the initial `best_score` of the loop). -/
def simOkB (v : PC → ℚ) (c : Cand) : Bool :=
  gtNegOneB (dotT v c) (sumSq v * tSq c)

/-- One iteration of a `best_score`/`best_mode` selection loop:
with no current best, a candidate becomes best when it clears the initial
score (`okB`); otherwise it replaces the current best exactly when its
score is strictly greater (`ltB`). -/
def chooseStep {α : Type} (okB : α → Bool) (ltB : α → α → Bool)
    (acc : Option α) (c : α) : Option α :=
  match acc with
  | none => if okB c then some c else none
  | some b => if ltB b c then some c else some b

/-- The `best_score`/`best_mode` accumulation of the source loop:
starting from no best (score `-1.0`), each candidate replaces the
current best exactly when its score is strictly greater. -/
def chooseFirst {α : Type} (okB : α → Bool) (ltB : α → α → Bool)
    (l : List α) : Option α :=
  l.foldl (chooseStep okB ltB) none

/-- The winning candidate of guess_mode's loop (source lines 133-165). -/
def bestCand (v : PC → ℚ) : Option Cand :=
  chooseFirst (simOkB v) (simLtB v) candList

/-- The `match_scores` dictionary.  An entry `(name, d, n)` represents the
stored value `round(sim, 4)` where `sim = d / (√(sumSq v) * √n)`. -/
def matchScores (v : PC → ℚ) : List (String × ℚ × ℚ) :=
  candList.map fun c => (candName c, dotT v c, tSq c)

/-- `guess_mode` (utils.py lines 108-169): the low-energy guard
(`np.linalg.norm < 1e-6`, i.e. squared norm `< 1e-12`), the 84-candidate
loop, and the final `(best_mode_name, tonic, match_scores)` assembly
(`tonic = best_mode.split()[0] if best_mode else "N/A"`). -/
def guess_mode (v : PC → ℚ) : String × String × List (String × ℚ × ℚ) :=
  if sumSq v < 1 / 10 ^ 12 then ("N/A", "N/A", [])
  else
    match bestCand v with
    | some c => (candName c, pcName c.1, matchScores v)
    | none => ("N/A", "N/A", matchScores v)

/-! ### Key Estimator `find_best_key`

`main.py` performs key estimation through `utils.find_best_key`, whose
definition is not part of the provided source tree (only its callers in
`main.py` are).  It is modelled here from the spec, section 4.2. -/

/-- Mean of the 12 entries of a vector (used by the Pearson correlation). -/
def mean12 (v : PC → ℚ) : ℚ := (∑ i, v i) / 12

/-- The vector recentred at its mean. -/
def centered (v : PC → ℚ) : PC → ℚ := fun i => v i - mean12 v

/-- Numerator of the Pearson correlation coefficient of two 12-bin
vectors: `∑ (x i - x̄) * (y i - ȳ)`. -/
def pearsonNum (x y : PC → ℚ) : ℚ := dotQ (centered x) (centered y)

/-- Square of the denominator of the Pearson correlation:
`(∑ (x i - x̄)^2) * (∑ (y i - ȳ)^2)`.  The correlation
`r = pearsonNum / √pearsonDenSq` is non-finite exactly when this is 0. -/
def pearsonDenSq (x y : PC → ℚ) : ℚ := sumSq (centered x) * sumSq (centered y)

/-- The two template modes of the Key Estimator. -/
inductive KMode : Type
  | major : KMode
  | minor : KMode
deriving DecidableEq

/-- Modelled from the spec: the 24 candidates of the Key Estimator,
"for each of the 12 tonics and each of the two templates", iterated
first tonic, then mode, in a fixed enumeration. -/
def fbkCands : List (PC × KMode) :=
  allPC.flatMap fun t => [(t, KMode.major), (t, KMode.minor)]

/-- Modelled from the spec: the fixed major/minor reference profile
(`majP`/`minP`, a parameter here since the spec fixes no numeric values)
"rotated so its peak aligns with that tonic". -/
def fbkTemplate (majP minP : PC → ℚ) (t : PC) (m : KMode) : PC → ℚ :=
  fun i => (match m with | KMode.major => majP | KMode.minor => minP) (i - t)

/-- Pearson numerator of the input against a candidate's rotated template. -/
def fbkNum (majP minP v : PC → ℚ) (c : PC × KMode) : ℚ :=
  pearsonNum v (fbkTemplate majP minP c.1 c.2)

/-- Pearson squared denominator of the input against a candidate's template. -/
def fbkDenSq (majP minP v : PC → ℚ) (c : PC × KMode) : ℚ :=
  pearsonDenSq v (fbkTemplate majP minP c.1 c.2)

/-- A candidate is admissible when its correlation is finite
(non-zero denominator); non-finite correlations are skipped. -/
def fbkOkB (majP minP v : PC → ℚ) (c : PC × KMode) : Bool :=
  decide (fbkDenSq majP minP v c ≠ 0)

/-- Encoded "candidate `c` has a finite correlation strictly greater than
the current best `b`". -/
def fbkLtB (majP minP v : PC → ℚ) (b c : PC × KMode) : Bool :=
  fbkOkB majP minP v c &&
    cmpLtB (fbkNum majP minP v b) (fbkDenSq majP minP v b)
      (fbkNum majP minP v c) (fbkDenSq majP minP v c)

/-- Modelled from the spec: the winning candidate — highest finite Pearson
correlation, ties broken by iteration order. -/
def fbkBest (majP minP v : PC → ℚ) : Option (PC × KMode) :=
  chooseFirst (fbkOkB majP minP v) (fbkLtB majP minP v) fbkCands

/-- A KeyEstimate.  The confidence `(r+1)/2` is an irrational real in
general; it is represented by `confEnc : Option (ℚ × ℚ)`, where
`some (d, n)` encodes `( d/√n + 1 ) / 2` and `none` encodes the
sentinel confidence `0` (see `confReal`). -/
structure KeyEst : Type where
  tonic : String
  mode : String
  key_signature : String
  confEnc : Option (ℚ × ℚ)
deriving DecidableEq

/-- The sentinel "N/A" estimate with confidence 0. -/
def naEstimate : KeyEst := ⟨"N/A", "N/A", "N/A", none⟩

/-- Modal label of the winning template: major → Ionian, minor → Aeolian. -/
def modeLabel : KMode → String
  | KMode.major => "Ionian"
  | KMode.minor => "Aeolian"

/-- The `<major|minor>` word of the key signature string. -/
def sigWord : KMode → String
  | KMode.major => "major"
  | KMode.minor => "minor"

/-- Modelled from the spec: `find_best_key` (§4.2 Key Estimator): score the
24 candidates with the Pearson correlation, pick the highest (ties by
iteration order), report confidence `(r+1)/2`; when every correlation is
non-finite return the sentinel "N/A" estimate with confidence 0. -/
def find_best_key (majP minP v : PC → ℚ) : KeyEst :=
  match fbkBest majP minP v with
  | none => naEstimate
  | some c =>
      ⟨pcName c.1, modeLabel c.2, pcName c.1 ++ " " ++ sigWord c.2,
        some (fbkNum majP minP v c, fbkDenSq majP minP v c)⟩

/-! ### Real-number interpretation of encoded scores (proof layer) -/

/-- The real value `d / √n` encoded by a pair `(d, n)`. -/
noncomputable def realScore (d n : ℚ) : ℝ := (d : ℝ) / Real.sqrt (n : ℝ)

/-- The real cosine similarity of guess_mode's candidate `c` on input `v`. -/
noncomputable def simReal (v : PC → ℚ) (c : Cand) : ℝ :=
  realScore (dotT v c) (sumSq v * tSq c)

/-- The real Pearson correlation of the Key Estimator's candidate `c`. -/
noncomputable def fbkR (majP minP v : PC → ℚ) (c : PC × KMode) : ℝ :=
  realScore (fbkNum majP minP v c) (fbkDenSq majP minP v c)

/-- The real confidence value encoded by a `KeyEst.confEnc`. -/
noncomputable def confReal : Option (ℚ × ℚ) → ℝ
  | none => 0
  | some (d, n) => (realScore d n + 1) / 2

/-! ### Region Classifier `classify_region_type`

`main.py` (lines 240-245) classifies via `utils.classify_region_type`,
whose definition is likewise not part of the provided source tree; it is
modelled from the spec, section 4.4. -/

/-- A cadence-detector result: `{detected, strength}`. -/
structure CadenceResult : Type where
  detected : Bool
  strength : ℚ
deriving DecidableEq

/-- The three terminal outcomes of the Region Classifier. -/
inductive RegionType : Type
  | stable : RegionType
  | modal_shift : RegionType
  | modulation : RegionType
deriving DecidableEq

/-- A region classification: type, confidence, borrowed pitch classes. -/
structure RegionClassification : Type where
  rtype : RegionType
  confidence : ℚ
  borrowed : Finset PC
deriving DecidableEq

/-- Modelled from the spec: `classify_region_type` (§4.4): identical key
signature strings → `stable` with confidence 0.95 and no borrowed tones;
otherwise `borrowed = local_pcs − global_pcs` (via the music-theory
collaborator `scalePCs`), `modulation` iff local confidence > 0.80 AND
cadence detected AND cadence strength > 0.60 (confidence the average of
the two), else `modal_shift` with confidence `1 − 0.15·|borrowed|`
floored at 0.5. -/
def classify_region_type (scalePCs : String → Finset PC)
    (globalKeySig localKeySig : String) (localConf : ℚ)
    (cad : CadenceResult) : RegionClassification :=
  if globalKeySig = localKeySig then ⟨RegionType.stable, 95/100, ∅⟩
  else
    let borrowed := scalePCs localKeySig \ scalePCs globalKeySig
    if 80/100 < localConf ∧ cad.detected = true ∧ 60/100 < cad.strength then
      ⟨RegionType.modulation, (localConf + cad.strength) / 2, borrowed⟩
    else
      ⟨RegionType.modal_shift, max (1 - (15/100) * borrowed.card) (1/2), borrowed⟩

/-! ### get_parent_major_key (utils.py lines 45-84) -/

/-- `MODE_TO_PARENT_INTERVAL` from utils.py. -/
def MODE_TO_PARENT_INTERVAL : List (String × String) :=
  [("Ionian", "P1"), ("Major", "P1"), ("Dorian", "M2"), ("Phrygian", "M3"),
   ("Lydian", "P4"), ("Mixolydian", "P5"), ("Aeolian", "M6"),
   ("Minor", "M6"), ("Locrian", "M7")]

/-- Helper for Python's `str.split()`: accumulates the current word
(reversed) and splits on any whitespace, dropping empty words. -/
def splitWsAux : List Char → List Char → List String
  | [], cur => if cur.isEmpty then [] else [String.mk cur.reverse]
  | ch :: rest, cur =>
    if ch.isWhitespace then
      if cur.isEmpty then splitWsAux rest []
      else String.mk cur.reverse :: splitWsAux rest []
    else splitWsAux rest (ch :: cur)

/-- Python's whitespace `str.split()` (no empty parts). -/
def pySplit (s : String) : List String := splitWsAux s.toList []

/-- `name.replace('-', '♭')` on the transposed tonic name. -/
def flatReplace (s : String) : String :=
  String.mk (s.toList.map fun ch => if ch = '-' then '♭' else ch)

/-- `get_parent_major_key` (utils.py lines 45-84).  The music21
pitch/interval computation (`pitch.Pitch`, `interval.Interval`,
`.reverse()`, `.transpose()`, `.name`) is the external collaborator
`transposeDown tonic intervalName`; `none` models the exception caught
by the source's `except` branch. -/
def get_parent_major_key (transposeDown : String → String → Option String)
    (fullModeName : String) : String :=
  if fullModeName = "N/A" then "N/A"
  else
    let parts := pySplit fullModeName
    if parts.length < 2 then fullModeName
    else
      match MODE_TO_PARENT_INTERVAL.lookup (parts.getD 1 "") with
      | none => "N/A"
      | some ivl =>
        match transposeDown (parts.getD 0 "") ivl with
        | none => "N/A"
        | some tonicStr => flatReplace tonicStr ++ " Major"

/-! ### Streaming global analysis (main.py lines 71-114)

Audio is modelled at mono-sample granularity (`List ℚ`, the downmixed
signal); the feature extractor is the external collaborator
`extract : List ℚ → List (PC → ℚ)`, returning the chroma matrix as its
list of frame columns. -/

/-- Zero-padding of a chunk up to the minimum sample count `M`
(`np.pad(y_chunk, (0, pad_width), "constant")`), applied only when the
chunk is shorter than `M`. -/
def padTo (M : ℕ) (c : List ℚ) : List ℚ :=
  if c.length < M then c ++ List.replicate (M - c.length) 0 else c

/-- Fuel-indexed splitting of the signal into successive blocks of `cs`
samples (`sf.blocks(blocksize=chunk_size)`); the fuel is the signal
length, enough for any positive `cs`. -/
def chunksOfAux (cs : ℕ) : ℕ → List ℚ → List (List ℚ)
  | 0, _ => []
  | _ + 1, [] => []
  | fuel + 1, x :: xs => (x :: xs).take cs :: chunksOfAux cs fuel ((x :: xs).drop cs)

/-- The successive chunks of the signal, `cs` samples each (last one
possibly shorter). -/
def chunksOf (cs : ℕ) (y : List ℚ) : List (List ℚ) := chunksOfAux cs y.length y

/-- One iteration of the global loop: skip empty chunks; otherwise pad to
`M` if short, extract, and accumulate `sum(chroma, axis=1)` and the frame
count. -/
def stepChunk (extract : List ℚ → List (PC → ℚ)) (M : ℕ)
    (acc : (PC → ℚ) × ℕ) (chunk : List ℚ) : (PC → ℚ) × ℕ :=
  if 0 < chunk.length then
    (fun i => acc.1 i + ((extract (padTo M chunk)).map fun col => col i).sum,
      acc.2 + (extract (padTo M chunk)).length)
  else acc

/-- The accumulated `(weighted_chroma_sum, total_frames)` of the global
pass. -/
def globalAccum (extract : List ℚ → List (PC → ℚ)) (M cs : ℕ)
    (y : List ℚ) : (PC → ℚ) × ℕ :=
  (chunksOf cs y).foldl (stepChunk extract M) (fun _ => 0, 0)

/-- `_run_global_analysis`'s final vector: `weighted_chroma_sum / total_frames`. -/
def globalVecStreamed (extract : List ℚ → List (PC → ℚ)) (M cs : ℕ)
    (y : List ℚ) : PC → ℚ :=
  fun i => (globalAccum extract M cs y).1 i / ((globalAccum extract M cs y).2 : ℚ)

/-- `_run_global_analysis` (main.py lines 71-114): error when zero frames
were accumulated, otherwise the averaged global chroma vector. -/
def run_global_analysis (extract : List ℚ → List (PC → ℚ)) (M cs : ℕ)
    (y : List ℚ) : Except String (PC → ℚ) :=
  if (globalAccum extract M cs y).2 = 0 then
    Except.error "Audio file is too short for analysis."
  else Except.ok (globalVecStreamed extract M cs y)

/-- Column mean of a chroma matrix given as its list of frame columns
(`chroma.mean(axis=1)`). -/
def columnMean (m : List (PC → ℚ)) : PC → ℚ :=
  fun i => (m.map fun col => col i).sum / (m.length : ℚ)

/-- From the spec's words (refinement counterpart for the streamed global
vector): "the column mean of the concatenation of all the per-chunk
chroma matrices" for the non-empty (padded) chunks. -/
def globalVecConcat (extract : List ℚ → List (PC → ℚ)) (M cs : ℕ)
    (y : List ℚ) : PC → ℚ :=
  columnMean
    ((((chunksOf cs y).filter fun c => decide (0 < c.length)).map
      fun c => extract (padTo M c)).flatten)

/-! ### Local segment analysis (main.py lines 117-215) -/

/-- The error kinds of `_run_local_analysis` (each a `ValueError` in the
source). -/
inductive LocalErr : Type
  | emptySegment : LocalErr
  | couldNotProcess : LocalErr
  | tooShort : LocalErr
deriving DecidableEq

/-- `segment_end_sec = end_time if end_time is not None and
end_time <= duration else duration`. -/
def segEndSec (duration : ℚ) (endTime : Option ℚ) : ℚ :=
  match endTime with
  | some e => if e ≤ duration then e else duration
  | none => duration

/-- The resolved sample count of the requested segment
(`end_sample - start_sample`). -/
def localNumToRead (toSamples : ℚ → ℤ) (duration startTime : ℚ)
    (endTime : Option ℚ) : ℤ :=
  toSamples (segEndSec duration endTime) - toSamples startTime

/-- The streaming while-loop of the local path: sequential reads of
`min(chunk_size, remaining)` samples, breaking on an empty read, padding
each block to `M` and extracting its chroma.  Fuel-indexed (the fuel is
the total sample count; every non-final iteration consumes at least one
sample). -/
def streamLoopAux (readAt : ℤ → ℕ → List ℚ)
    (extract : List ℚ → List (PC → ℚ)) (M cs : ℕ) :
    ℕ → ℤ → ℕ → List (List (PC → ℚ))
  | 0, _, _ => []
  | fuel + 1, pos, remaining =>
    if remaining = 0 then []
    else
      let block := readAt pos (min cs remaining)
      if block.length = 0 then []
      else
        extract (padTo M block) ::
          streamLoopAux readAt extract M cs fuel (pos + block.length)
            (remaining - block.length)

/-- `_run_local_analysis` (main.py lines 117-215).  The audio reader is
the collaborator `readAt start count` (the downmixed mono samples
actually read, at most `count`); `toSamples` is `librosa.time_to_samples`;
`estimate` is the key-estimation step run on the column-averaged chroma
(`utils.find_best_key(local_chroma.mean(axis=1))`). -/
def run_local_analysis (M cs : ℕ) (streamThr : ℚ)
    (readAt : ℤ → ℕ → List ℚ) (extract : List ℚ → List (PC → ℚ))
    (estimate : (PC → ℚ) → KeyEst) (duration startTime : ℚ)
    (endTime : Option ℚ) (toSamples : ℚ → ℤ) :
    Except LocalErr (KeyEst × List (PC → ℚ) × ℚ × ℚ) :=
  let segStart := startTime
  let segEnd := segEndSec duration endTime
  let segDur := segEnd - segStart
  let startSample := toSamples segStart
  let numToRead := localNumToRead toSamples duration startTime endTime
  if numToRead ≤ 0 then Except.error LocalErr.emptySegment
  else if streamThr < segDur then
    match streamLoopAux readAt extract M cs numToRead.toNat startSample
        numToRead.toNat with
    | [] => Except.error LocalErr.couldNotProcess
    | m :: ms =>
      let chroma := (m :: ms).flatten
      Except.ok (estimate (columnMean chroma), chroma, segStart, segEnd)
  else
    let y := readAt startSample numToRead.toNat
    if y.length < M then Except.error LocalErr.tooShort
    else
      let chroma := extract y
      Except.ok (estimate (columnMean chroma), chroma, segStart, segEnd)

/-! ### Concrete vectors used as witness inputs -/

/-- The all-ones pitch-class vector. -/
def ones : PC → ℚ := fun _ => 1

/-- The unit impulse at pitch class C. -/
def e0 : PC → ℚ := fun i => if i = 0 then 1 else 0

/-! ## Proof layer: bridges between encoded scores and real values -/

lemma ratCast_sqrt_pos {n : ℚ} (hn : 0 < n) : 0 < Real.sqrt (n : ℝ) :=
  Real.sqrt_pos.mpr (by exact_mod_cast hn)

lemma cmpLtB_iff {d1 n1 d2 n2 : ℚ} (h1 : 0 < n1) (h2 : 0 < n2) :
    cmpLtB d1 n1 d2 n2 = true ↔ realScore d1 n1 < realScore d2 n2 := by
  have s1 : (0:ℝ) < Real.sqrt (n1:ℝ) := ratCast_sqrt_pos h1
  have s2 : (0:ℝ) < Real.sqrt (n2:ℝ) := ratCast_sqrt_pos h2
  have e1 : Real.sqrt (n1:ℝ) ^ 2 = (n1:ℝ) := Real.sq_sqrt (by positivity)
  have e2 : Real.sqrt (n2:ℝ) ^ 2 = (n2:ℝ) := Real.sq_sqrt (by positivity)
  unfold cmpLtB realScore
  rw [div_lt_div_iff s1 s2]
  split_ifs with hd1 hd2 hd2
  · rw [decide_eq_true_eq,
      show ((d1:ℝ) * Real.sqrt (n2:ℝ) < (d2:ℝ) * Real.sqrt (n1:ℝ)) ↔
          ((d1:ℝ) * Real.sqrt (n2:ℝ)) ^ 2 < ((d2:ℝ) * Real.sqrt (n1:ℝ)) ^ 2 from
        (pow_lt_pow_iff_left₀ (by positivity) (by positivity) (by norm_num)).symm,
      mul_pow, mul_pow, e1, e2]
    exact_mod_cast Iff.rfl
  · have hd2' : (d2:ℝ) < 0 := by exact_mod_cast not_le.mp hd2
    have hlt : (d2:ℝ) * Real.sqrt (n1:ℝ) < (d1:ℝ) * Real.sqrt (n2:ℝ) :=
      lt_of_lt_of_le (mul_neg_of_neg_of_pos hd2' s1)
        (mul_nonneg (by exact_mod_cast hd1) s2.le)
    simp only [Bool.false_eq_true, false_iff, not_lt]
    exact hlt.le
  · have hd1' : (d1:ℝ) < 0 := by exact_mod_cast not_le.mp hd1
    have hlt : (d1:ℝ) * Real.sqrt (n2:ℝ) < (d2:ℝ) * Real.sqrt (n1:ℝ) :=
      lt_of_lt_of_le (mul_neg_of_neg_of_pos hd1' s2)
        (mul_nonneg (by exact_mod_cast hd2) s1.le)
    simp only [true_iff]
    exact hlt
  · have hd1' : (d1:ℝ) < 0 := by exact_mod_cast not_le.mp hd1
    have hd2' : (d2:ℝ) < 0 := by exact_mod_cast not_le.mp hd2
    rw [decide_eq_true_eq,
      show ((d1:ℝ) * Real.sqrt (n2:ℝ) < (d2:ℝ) * Real.sqrt (n1:ℝ)) ↔
          (-(d2:ℝ)) * Real.sqrt (n1:ℝ) < (-(d1:ℝ)) * Real.sqrt (n2:ℝ) by
        rw [neg_mul, neg_mul, neg_lt_neg_iff],
      show ((-(d2:ℝ)) * Real.sqrt (n1:ℝ) < (-(d1:ℝ)) * Real.sqrt (n2:ℝ)) ↔
          ((-(d2:ℝ)) * Real.sqrt (n1:ℝ)) ^ 2 < ((-(d1:ℝ)) * Real.sqrt (n2:ℝ)) ^ 2 from
        (pow_lt_pow_iff_left₀
          (mul_nonneg (neg_nonneg.mpr hd2'.le) s1.le)
          (mul_nonneg (neg_nonneg.mpr hd1'.le) s2.le) (by norm_num)).symm,
      mul_pow, mul_pow, e1, e2, neg_sq, neg_sq]
    exact_mod_cast Iff.rfl

lemma gtNegOneB_iff {d n : ℚ} (hn : 0 < n) :
    gtNegOneB d n = true ↔ -1 < realScore d n := by
  have s : (0:ℝ) < Real.sqrt (n:ℝ) := ratCast_sqrt_pos hn
  have e : Real.sqrt (n:ℝ) ^ 2 = (n:ℝ) := Real.sq_sqrt (by positivity)
  have hiff : (-1 : ℝ) < realScore d n ↔ -Real.sqrt (n:ℝ) < (d:ℝ) := by
    unfold realScore
    rw [lt_div_iff s, neg_one_mul]
  rw [gtNegOneB, Bool.or_eq_true, decide_eq_true_eq, decide_eq_true_eq, hiff]
  constructor
  · rintro (hd | hsq)
    · exact lt_of_lt_of_le (neg_neg_of_pos s) (by exact_mod_cast hd)
    · rcases le_or_lt 0 d with hd | hd
      · exact lt_of_lt_of_le (neg_neg_of_pos s) (by exact_mod_cast hd)
      · have hd' : (d:ℝ) < 0 := by exact_mod_cast hd
        have h2 : (-(d:ℝ)) ^ 2 < Real.sqrt (n:ℝ) ^ 2 := by
          rw [neg_sq, e]; exact_mod_cast hsq
        have := (pow_lt_pow_iff_left₀ (neg_nonneg.mpr hd'.le) s.le
          (by norm_num)).mp h2
        linarith
  · intro h
    rcases le_or_lt 0 d with hd | hd
    · exact Or.inl hd
    · refine Or.inr ?_
      have hd' : (d:ℝ) < 0 := by exact_mod_cast hd
      have h1 : -(d:ℝ) < Real.sqrt (n:ℝ) := by linarith
      have h2 : (-(d:ℝ)) ^ 2 < Real.sqrt (n:ℝ) ^ 2 :=
        pow_lt_pow_left h1 (neg_nonneg.mpr hd'.le) (by norm_num)
      rw [neg_sq, e] at h2
      exact_mod_cast h2

lemma realScore_zero_den (d : ℚ) : realScore d 0 = 0 := by
  simp [realScore]

/-- `d / √n` lies in `[-1, 1]` whenever `d ^ 2 ≤ n` (also at `n = 0`,
where it is 0). -/
lemma realScore_bounds {d n : ℚ} (h : d ^ 2 ≤ n) :
    -1 ≤ realScore d n ∧ realScore d n ≤ 1 := by
  rcases eq_or_lt_of_le (le_trans (sq_nonneg d) h) with hn | hn
  · rw [← hn, realScore_zero_den]
    norm_num
  · have s : (0:ℝ) < Real.sqrt (n:ℝ) := ratCast_sqrt_pos hn
    have habs : |(d:ℝ)| ≤ Real.sqrt (n:ℝ) :=
      Real.abs_le_sqrt (by exact_mod_cast h)
    have h1 : |realScore d n| ≤ 1 := by
      rw [realScore, abs_div, abs_of_pos s, div_le_one s]
      exact habs
    exact ⟨neg_le_of_abs_le h1, le_of_abs_le h1⟩

/-- Cauchy-Schwarz for 12-bin rational vectors. -/
lemma csq (v w : PC → ℚ) : (dotQ v w) ^ 2 ≤ sumSq v * sumSq w :=
  Finset.sum_mul_sq_le_sq_mul_sq Finset.univ v w

/-! ### Template facts -/

lemma SCALE_WEIGHTS_nonneg (i : PC) : 0 ≤ SCALE_WEIGHTS i := by
  unfold SCALE_WEIGHTS
  split_ifs <;> norm_num

lemma templateVec_nonneg (t : PC) (s : Fin 7) (i : PC) :
    0 ≤ templateVec t s i := by
  unfold templateVec
  split_ifs
  · exact SCALE_WEIGHTS_nonneg _
  · exact le_refl 0

lemma zero_mem_scalePattern (s : Fin 7) : (0 : PC) ∈ scalePattern s := by
  fin_cases s <;> decide

lemma templateVec_self (t : PC) (s : Fin 7) : templateVec t s t = 1 := by
  unfold templateVec
  rw [sub_self]
  rw [if_pos (zero_mem_scalePattern s)]
  rfl

lemma one_le_tSq (c : Cand) : 1 ≤ tSq c := by
  have h := Finset.single_le_sum
    (f := fun i => (templateVec c.1 c.2 i) ^ 2)
    (fun i _ => sq_nonneg _) (Finset.mem_univ c.1)
  simp only [templateVec_self, one_pow] at h
  simpa [tSq, sumSq] using h

lemma tSq_pos (c : Cand) : 0 < tSq c := lt_of_lt_of_le one_pos (one_le_tSq c)

lemma sumSq_nonneg (v : PC → ℚ) : 0 ≤ sumSq v :=
  Finset.sum_nonneg fun i _ => sq_nonneg _

lemma dotT_nonneg {v : PC → ℚ} (hv : ∀ i, 0 ≤ v i) (c : Cand) :
    0 ≤ dotT v c :=
  Finset.sum_nonneg fun i _ => mul_nonneg (hv i) (templateVec_nonneg _ _ _)

/-- The cosine similarity of any candidate lies in `[-1, 1]`. -/
lemma simReal_bounds (v : PC → ℚ) (c : Cand) :
    -1 ≤ simReal v c ∧ simReal v c ≤ 1 := by
  refine realScore_bounds ?_
  unfold dotT
  calc (dotQ v (templateVec c.1 c.2)) ^ 2
      ≤ sumSq v * sumSq (templateVec c.1 c.2) := csq _ _
    _ = sumSq v * tSq c := rfl

/-! ### Generic facts about the first-strict-maximum selection loop

Throughout, `P c` is the semantic meaning of `okB c` ("the score of `c`
clears the initial score"), and `g c` is the real score of `c`;
`hok`/`hlt` tie the boolean tests to those meanings. -/

section ChooseFirst

variable {α : Type} {okB : α → Bool} {ltB : α → α → Bool}
variable {P : α → Prop} {g : α → ℝ}

lemma chooseStep_P
    (hok : ∀ c, okB c = true ↔ P c)
    (hlt : ∀ b c, P b → (ltB b c = true ↔ (P c ∧ g b < g c)))
    {acc : Option α} {c b' : α}
    (hacc : ∀ b, acc = some b → P b)
    (h : chooseStep okB ltB acc c = some b') : P b' := by
  cases acc with
  | none =>
    simp only [chooseStep] at h
    split_ifs at h with hc
    · have hcb : c = b' := Option.some.inj h
      subst hcb
      exact (hok c).mp hc
  | some b =>
    simp only [chooseStep] at h
    split_ifs at h with hbc
    · have hcb : c = b' := Option.some.inj h
      subst hcb
      exact ((hlt b c (hacc b rfl)).mp hbc).1
    · have hcb : b = b' := Option.some.inj h
      subst hcb
      exact hacc b rfl

lemma foldl_chooseStep_P
    (hok : ∀ c, okB c = true ↔ P c)
    (hlt : ∀ b c, P b → (ltB b c = true ↔ (P c ∧ g b < g c))) :
    ∀ (l : List α) (acc : Option α), (∀ b, acc = some b → P b) →
      ∀ b', l.foldl (chooseStep okB ltB) acc = some b' → P b' := by
  intro l
  induction l with
  | nil =>
    intro acc hacc b' h
    rw [List.foldl_nil] at h
    exact hacc b' h
  | cons hd tl ih =>
    intro acc hacc b' h
    rw [List.foldl_cons] at h
    exact ih _ (fun b hb => chooseStep_P hok hlt hacc hb) b' h

lemma foldl_chooseStep_mem {l : List α} :
    ∀ (acc : Option α) (b' : α),
      l.foldl (chooseStep okB ltB) acc = some b' → b' ∈ l ∨ acc = some b' := by
  induction l with
  | nil =>
    intro acc b' h
    rw [List.foldl_nil] at h
    exact Or.inr h
  | cons hd tl ih =>
    intro acc b' h
    rw [List.foldl_cons] at h
    rcases ih _ _ h with hm | hs
    · exact Or.inl (List.mem_cons_of_mem _ hm)
    · cases acc with
      | none =>
        simp only [chooseStep] at hs
        split_ifs at hs
        cases hs
        exact Or.inl (List.mem_cons_self _ _)
      | some b =>
        simp only [chooseStep] at hs
        split_ifs at hs
        · cases hs
          exact Or.inl (List.mem_cons_self _ _)
        · exact Or.inr hs

lemma foldl_chooseStep_ge
    (hok : ∀ c, okB c = true ↔ P c)
    (hlt : ∀ b c, P b → (ltB b c = true ↔ (P c ∧ g b < g c))) :
    ∀ (l : List α) (b b' : α), P b →
      l.foldl (chooseStep okB ltB) (some b) = some b' → g b ≤ g b' := by
  intro l
  induction l with
  | nil =>
    intro b b' _ h
    rw [List.foldl_nil] at h
    cases h
    exact le_refl _
  | cons hd tl ih =>
    intro b b' hPb h
    rw [List.foldl_cons] at h
    by_cases hbc : ltB b hd = true
    · have hstep : chooseStep okB ltB (some b) hd = some hd := by
        simp [chooseStep, hbc]
      rw [hstep] at h
      have hP : P hd ∧ g b < g hd := (hlt b hd hPb).mp hbc
      exact le_of_lt (lt_of_lt_of_le hP.2 (ih hd b' hP.1 h))
    · have hstep : chooseStep okB ltB (some b) hd = some b := by
        simp [chooseStep, hbc]
      rw [hstep] at h
      exact ih b b' hPb h

lemma foldl_chooseStep_max
    (hok : ∀ c, okB c = true ↔ P c)
    (hlt : ∀ b c, P b → (ltB b c = true ↔ (P c ∧ g b < g c))) :
    ∀ (l : List α) (acc : Option α) (b' : α),
      (∀ b, acc = some b → P b) →
      l.foldl (chooseStep okB ltB) acc = some b' →
      ∀ x ∈ l, P x → g x ≤ g b' := by
  intro l
  induction l with
  | nil =>
    intro acc b' _ _ x hx
    cases hx
  | cons hd tl ih =>
    intro acc b' hacc h x hx hPx
    rw [List.foldl_cons] at h
    rcases List.mem_cons.mp hx with rfl | hxtl
    · cases acc with
      | none =>
        have hok' : okB x = true := (hok x).mpr hPx
        have hstep : chooseStep okB ltB none x = some x := by
          simp [chooseStep, hok']
        rw [hstep] at h
        exact foldl_chooseStep_ge hok hlt tl x b' hPx h
      | some b =>
        have hPb : P b := hacc b rfl
        by_cases hbc : ltB b x = true
        · have hstep : chooseStep okB ltB (some b) x = some x := by
            simp [chooseStep, hbc]
          rw [hstep] at h
          exact foldl_chooseStep_ge hok hlt tl x b' hPx h
        · have hstep : chooseStep okB ltB (some b) x = some b := by
            simp [chooseStep, hbc]
          rw [hstep] at h
          have hxb : g x ≤ g b := by
            by_contra hcon
            exact hbc ((hlt b x hPb).mpr ⟨hPx, not_le.mp hcon⟩)
          exact le_trans hxb (foldl_chooseStep_ge hok hlt tl b b' hPb h)
    · exact ih _ _ (fun b hb => chooseStep_P hok hlt hacc hb) h x hxtl hPx

lemma foldl_chooseStep_some_ne_none :
    ∀ (l : List α) (b : α), l.foldl (chooseStep okB ltB) (some b) ≠ none := by
  intro l
  induction l with
  | nil =>
    intro b h
    rw [List.foldl_nil] at h
    cases h
  | cons hd tl ih =>
    intro b h
    rw [List.foldl_cons] at h
    by_cases hbc : ltB b hd = true
    · rw [show chooseStep okB ltB (some b) hd = some hd by
        simp [chooseStep, hbc]] at h
      exact ih hd h
    · rw [show chooseStep okB ltB (some b) hd = some b by
        simp [chooseStep, hbc]] at h
      exact ih b h

lemma foldl_chooseStep_none :
    ∀ (l : List α), l.foldl (chooseStep okB ltB) none = none →
      ∀ x ∈ l, okB x = false := by
  intro l
  induction l with
  | nil =>
    intro _ x hx
    cases hx
  | cons hd tl ih =>
    intro h x hx
    rw [List.foldl_cons] at h
    by_cases hhd : okB hd = true
    · rw [show chooseStep okB ltB none hd = some hd by
        simp [chooseStep, hhd]] at h
      exact absurd h (foldl_chooseStep_some_ne_none tl hd)
    · have hstep : chooseStep okB ltB none hd = none := by
        simp [chooseStep, hhd]
      rw [hstep] at h
      rcases List.mem_cons.mp hx with rfl | hxtl
      · exact Bool.not_eq_true _ ▸ Bool.eq_false_iff.mpr hhd
      · exact ih h x hxtl

lemma foldl_chooseStep_keep
    (hok : ∀ c, okB c = true ↔ P c)
    (hlt : ∀ b c, P b → (ltB b c = true ↔ (P c ∧ g b < g c))) :
    ∀ (l : List α) (b : α), P b → (∀ x ∈ l, ¬(P x ∧ g b < g x)) →
      l.foldl (chooseStep okB ltB) (some b) = some b := by
  intro l
  induction l with
  | nil =>
    intro b _ _
    rw [List.foldl_nil]
  | cons hd tl ih =>
    intro b hPb hmax
    rw [List.foldl_cons]
    have hbc : ¬ ltB b hd = true := fun hcon =>
      hmax hd (List.mem_cons_self _ _) ((hlt b hd hPb).mp hcon)
    rw [show chooseStep okB ltB (some b) hd = some b by
      simp [chooseStep, hbc]]
    exact ih b hPb fun x hx => hmax x (List.mem_cons_of_mem _ hx)

lemma foldl_chooseStep_uniq
    (hok : ∀ c, okB c = true ↔ P c)
    (hlt : ∀ b c, P b → (ltB b c = true ↔ (P c ∧ g b < g c))) :
    ∀ (l : List α) (acc : Option α) (cstar : α),
      P cstar → cstar ∈ l →
      (∀ x ∈ l, x ≠ cstar → P x → g x < g cstar) →
      (acc = none ∨ ∃ b, acc = some b ∧ P b ∧ g b < g cstar) →
      l.foldl (chooseStep okB ltB) acc = some cstar := by
  intro l
  induction l with
  | nil =>
    intro acc cstar _ hmem
    cases hmem
  | cons hd tl ih =>
    intro acc cstar hPc hmem hmax hacc
    rw [List.foldl_cons]
    by_cases hhd : hd = cstar
    · subst hhd
      have hstep : chooseStep okB ltB acc hd = some hd := by
        rcases hacc with rfl | ⟨b, rfl, hPb, hgb⟩
        · simp [chooseStep, (hok hd).mpr hPc]
        · simp [chooseStep, (hlt b hd hPb).mpr ⟨hPc, hgb⟩]
      rw [hstep]
      refine foldl_chooseStep_keep hok hlt tl hd hPc ?_
      intro x hx ⟨hPx, hgx⟩
      by_cases hxc : x = hd
      · subst hxc
        exact lt_irrefl _ hgx
      · exact absurd hgx (not_lt.mpr (le_of_lt
          (hmax x (List.mem_cons_of_mem _ hx) hxc hPx)))
    · have hmem' : cstar ∈ tl := by
        rcases List.mem_cons.mp hmem with rfl | h
        · exact absurd rfl hhd
        · exact h
      have hghd : P hd → g hd < g cstar :=
        hmax hd (List.mem_cons_self _ _) hhd
      refine ih _ cstar hPc hmem'
        (fun x hx => hmax x (List.mem_cons_of_mem _ hx)) ?_
      rcases hacc with rfl | ⟨b, rfl, hPb, hgb⟩
      · by_cases hokhd : okB hd = true
        · exact Or.inr ⟨hd, by simp [chooseStep, hokhd],
            (hok hd).mp hokhd, hghd ((hok hd).mp hokhd)⟩
        · exact Or.inl (by simp [chooseStep, hokhd])
      · by_cases hbc : ltB b hd = true
        · have h2 := (hlt b hd hPb).mp hbc
          exact Or.inr ⟨hd, by simp [chooseStep, hbc], h2.1, hghd h2.1⟩
        · exact Or.inr ⟨b, by simp [chooseStep, hbc], hPb, hgb⟩

/-- The selected element of `chooseFirst` is the first occurrence of the
maximum: every admissible element strictly before it scores strictly
lower. -/
lemma chooseFirst_first
    (hok : ∀ c, okB c = true ↔ P c)
    (hlt : ∀ b c, P b → (ltB b c = true ↔ (P c ∧ g b < g c)))
    (u w : List α) (c : α) (hcu : c ∉ u) (hcw : c ∉ w)
    (h : chooseFirst okB ltB (u ++ c :: w) = some c) :
    ∀ x ∈ u, P x → g x < g c := by
  unfold chooseFirst at h
  rw [List.foldl_append, List.foldl_cons] at h
  rcases hacc2 : List.foldl (chooseStep okB ltB) none u with _ | b
  · rw [hacc2] at h
    intro x hx hPx
    exact absurd ((hok x).mpr hPx)
      (by simp [foldl_chooseStep_none u hacc2 x hx])
  · rw [hacc2] at h
    have hPb : P b :=
      foldl_chooseStep_P hok hlt u none (fun _ h' => by cases h') b hacc2
    have hbmem : b ∈ u := by
      rcases foldl_chooseStep_mem none b hacc2 with hm | hs
      · exact hm
      · cases hs
    have hbc : ltB b c = true := by
      by_contra hcon
      rw [show chooseStep okB ltB (some b) c = some b by
        simp [chooseStep, hcon]] at h
      rcases foldl_chooseStep_mem (some b) c h with hm | hs
      · exact hcw hm
      · cases hs
        exact hcu hbmem
    have hgbc : g b < g c := ((hlt b c hPb).mp hbc).2
    intro x hx hPx
    exact lt_of_le_of_lt
      (foldl_chooseStep_max hok hlt u none b (fun _ h' => by cases h')
        hacc2 x hx hPx) hgbc

lemma foldl_chooseStep_all_not_ok :
    ∀ (l : List α), (∀ x ∈ l, okB x = false) →
      l.foldl (chooseStep okB ltB) none = none := by
  intro l
  induction l with
  | nil =>
    intro _
    rw [List.foldl_nil]
  | cons hd tl ih =>
    intro h
    rw [List.foldl_cons,
      show chooseStep okB ltB none hd = none by
        simp [chooseStep, h hd (List.mem_cons_self _ _)]]
    exact ih fun x hx => h x (List.mem_cons_of_mem _ hx)

end ChooseFirst

/-! ### Rotation lemmas for guess_mode -/

lemma templateVec_rot (t k : PC) (s : Fin 7) (i : PC) :
    templateVec (t + k) s i = templateVec t s (i - k) := by
  unfold templateVec
  rw [sub_add_eq_sub_sub, sub_right_comm]

lemma sumSq_rotv (k : PC) (v : PC → ℚ) : sumSq (rotv k v) = sumSq v := by
  unfold sumSq rotv
  exact Fintype.sum_equiv (Equiv.subRight k) _ _ fun i => rfl

lemma dotT_rotv (v : PC → ℚ) (k t : PC) (s : Fin 7) :
    dotT (rotv k v) (t + k, s) = dotT v (t, s) := by
  unfold dotT dotQ rotv
  exact Fintype.sum_equiv (Equiv.subRight k) _ _ fun i => by
    rw [templateVec_rot]
    rfl

lemma tSq_rot (t k : PC) (s : Fin 7) : tSq (t + k, s) = tSq (t, s) := by
  unfold tSq sumSq
  exact Fintype.sum_equiv (Equiv.subRight k) _ _ fun i => by
    rw [templateVec_rot]
    rfl

lemma simReal_rotv (v : PC → ℚ) (k : PC) (c : Cand) :
    simReal (rotv k v) (c.1 + k, c.2) = simReal v c := by
  unfold simReal
  rw [show ((c.1 + k, c.2) : Cand) = (c.1 + k, c.2) from rfl]
  rw [show dotT (rotv k v) (c.1 + k, c.2) = dotT v (c.1, c.2) from
      dotT_rotv v k c.1 c.2,
    sumSq_rotv, show tSq (c.1 + k, c.2) = tSq (c.1, c.2) from tSq_rot c.1 k c.2]

/-! ### Semantic instantiation for guess_mode's loop -/

lemma simLtB_iff {v : PC → ℚ} (hv : 0 < sumSq v) (a b : Cand) :
    simLtB v a b = true ↔ simReal v a < simReal v b :=
  cmpLtB_iff (mul_pos hv (tSq_pos a)) (mul_pos hv (tSq_pos b))

lemma sim_hok {v : PC → ℚ} (hv : 0 < sumSq v) :
    ∀ c : Cand, simOkB v c = true ↔ -1 < simReal v c := fun c =>
  gtNegOneB_iff (mul_pos hv (tSq_pos c))

lemma sim_hlt {v : PC → ℚ} (hv : 0 < sumSq v) :
    ∀ b c : Cand, -1 < simReal v b →
      (simLtB v b c = true ↔ (-1 < simReal v c ∧ simReal v b < simReal v c)) := by
  intro b c hPb
  rw [simLtB_iff hv]
  constructor
  · intro h
    exact ⟨lt_trans hPb h, h⟩
  · exact And.right

lemma mem_candList : ∀ c : Cand, c ∈ candList := by decide

/-- With a strictly dominating candidate, the loop selects it. -/
lemma bestCand_eq_of_uniq {v : PC → ℚ} (hv : 0 < sumSq v) (cstar : Cand)
    (hmax : ∀ x ∈ candList, x ≠ cstar → simReal v x < simReal v cstar) :
    bestCand v = some cstar := by
  have hein : ∃ x0, x0 ∈ candList ∧ x0 ≠ cstar := by
    by_cases h : cstar = ((0 : PC), (0 : Fin 7))
    · exact ⟨((1 : PC), (0 : Fin 7)), mem_candList _, by rw [h]; decide⟩
    · exact ⟨((0 : PC), (0 : Fin 7)), mem_candList _, fun h2 => h h2.symm⟩
  obtain ⟨x0, hx0m, hx0ne⟩ := hein
  have hPc : -1 < simReal v cstar :=
    lt_of_le_of_lt (simReal_bounds v x0).1 (hmax x0 hx0m hx0ne)
  exact foldl_chooseStep_uniq (sim_hok hv) (sim_hlt hv) candList none cstar
    hPc (mem_candList cstar)
    (fun x hx hne _ => hmax x hx hne) (Or.inl rfl)

/-! ### Semantic instantiation for the Key Estimator's loop -/

lemma fbkDenSq_nonneg (majP minP v : PC → ℚ) (c : PC × KMode) :
    0 ≤ fbkDenSq majP minP v c :=
  mul_nonneg (sumSq_nonneg _) (sumSq_nonneg _)

lemma fbkNum_sq_le (majP minP v : PC → ℚ) (c : PC × KMode) :
    fbkNum majP minP v c ^ 2 ≤ fbkDenSq majP minP v c :=
  csq (centered v) (centered (fbkTemplate majP minP c.1 c.2))

lemma fbk_hok (majP minP v : PC → ℚ) :
    ∀ c, fbkOkB majP minP v c = true ↔ fbkDenSq majP minP v c ≠ 0 := by
  intro c
  rw [fbkOkB, decide_eq_true_eq]

lemma fbk_hlt (majP minP v : PC → ℚ) :
    ∀ b c, fbkDenSq majP minP v b ≠ 0 →
      (fbkLtB majP minP v b c = true ↔
        (fbkDenSq majP minP v c ≠ 0 ∧
          fbkR majP minP v b < fbkR majP minP v c)) := by
  intro b c hPb
  have hposb : 0 < fbkDenSq majP minP v b :=
    lt_of_le_of_ne (fbkDenSq_nonneg majP minP v b) (Ne.symm hPb)
  rw [fbkLtB, Bool.and_eq_true, fbk_hok]
  constructor
  · rintro ⟨hPc, hcmp⟩
    have hposc : 0 < fbkDenSq majP minP v c :=
      lt_of_le_of_ne (fbkDenSq_nonneg majP minP v c) (Ne.symm hPc)
    exact ⟨hPc, (cmpLtB_iff hposb hposc).mp hcmp⟩
  · rintro ⟨hPc, hlt⟩
    have hposc : 0 < fbkDenSq majP minP v c :=
      lt_of_le_of_ne (fbkDenSq_nonneg majP minP v c) (Ne.symm hPc)
    exact ⟨hPc, (cmpLtB_iff hposb hposc).mpr hlt⟩

/-- The represented confidence `(r+1)/2` is in `[0,1]` whenever the
encoded pair satisfies the Cauchy-Schwarz bound. -/
lemma confReal_bounds {d n : ℚ} (h : d ^ 2 ≤ n) :
    0 ≤ confReal (some (d, n)) ∧ confReal (some (d, n)) ≤ 1 := by
  obtain ⟨h1, h2⟩ := realScore_bounds h
  unfold confReal
  constructor <;> [linarith; linarith]

/-! ### String token facts -/

lemma candName_tokens : ∀ c : Cand,
    pySplit (candName c) = [pcName c.1, modeName c.2] := by decide

lemma na_headToken : (pySplit "N/A").headD "" = "N/A" := by decide

/-! ### Aggregation facts for the global pass -/

lemma padTo_length_of_short {M : ℕ} {c : List ℚ} (h : c.length < M) :
    (padTo M c).length = M := by
  unfold padTo
  rw [if_pos h, List.length_append, List.length_replicate]
  omega

lemma globalFold_snd (extract : List ℚ → List (PC → ℚ)) (M : ℕ) :
    ∀ (l : List (List ℚ)) (acc : (PC → ℚ) × ℕ),
      (l.foldl (stepChunk extract M) acc).2 =
        acc.2 + (l.map fun c =>
          if 0 < c.length then (extract (padTo M c)).length else 0).sum := by
  intro l
  induction l with
  | nil =>
    intro acc
    simp
  | cons hd tl ih =>
    intro acc
    rw [List.foldl_cons, List.map_cons, List.sum_cons, ih]
    unfold stepChunk
    by_cases h : 0 < hd.length
    · rw [if_pos h, if_pos h]
      omega
    · rw [if_neg h, if_neg h]
      omega

lemma globalFold_fst (extract : List ℚ → List (PC → ℚ)) (M : ℕ) (i : PC) :
    ∀ (l : List (List ℚ)) (acc : (PC → ℚ) × ℕ),
      (l.foldl (stepChunk extract M) acc).1 i =
        acc.1 i +
          ((((l.filter fun c => decide (0 < c.length)).map
            fun c => extract (padTo M c)).flatten.map fun col => col i)).sum := by
  intro l
  induction l with
  | nil =>
    intro acc
    simp
  | cons hd tl ih =>
    intro acc
    rw [List.foldl_cons]
    by_cases h : 0 < hd.length
    · rw [List.filter_cons_of_pos (by simpa using h), List.map_cons,
        List.flatten_cons, List.map_append, List.sum_append, ih]
      unfold stepChunk
      rw [if_pos h]
      push_cast
      ring
    · rw [List.filter_cons_of_neg (by simpa using h), ih]
      unfold stepChunk
      rw [if_neg h]

lemma globalFold_snd_flatten (extract : List ℚ → List (PC → ℚ)) (M : ℕ) :
    ∀ (l : List (List ℚ)) (acc : (PC → ℚ) × ℕ),
      (l.foldl (stepChunk extract M) acc).2 =
        acc.2 + (((l.filter fun c => decide (0 < c.length)).map
          fun c => extract (padTo M c)).flatten).length := by
  intro l
  induction l with
  | nil =>
    intro acc
    simp
  | cons hd tl ih =>
    intro acc
    rw [List.foldl_cons]
    by_cases h : 0 < hd.length
    · rw [List.filter_cons_of_pos (by simpa using h), List.map_cons,
        List.flatten_cons, List.length_append, ih]
      unfold stepChunk
      rw [if_pos h]
      omega
    · rw [List.filter_cons_of_neg (by simpa using h), ih]
      unfold stepChunk
      rw [if_neg h]

/-! ## Claim theorems -/

/-- Claim C2: for every pair of global and local key estimates whose
key-signature strings are textually identical, the Region Classifier
returns type `stable` with confidence 0.95 and an empty borrowed-tones
set, for every possible CadenceResult input (and every music-theory
lookup and local confidence). -/
theorem C2_stable_identical_keys (scalePCs : String → Finset PC)
    (sig : String) (localConf : ℚ) (cad : CadenceResult) :
    classify_region_type scalePCs sig sig localConf cad =
      ⟨RegionType.stable, 95/100, ∅⟩ := by
  unfold classify_region_type
  rw [if_pos rfl]

/-- Claim C3: for every non-stable input (distinct key-signature strings),
the Region Classifier returns `modulation` iff local confidence > 0.80
AND the cadence detector fired AND cadence strength > 0.60; in
particular confidence exactly 0.80 or strength exactly 0.60 never yields
`modulation`, while confidence 0.801 and strength 0.601 with detection
true always does. -/
theorem C3_modulation_iff (scalePCs : String → Finset PC)
    (gs ls : String) (localConf : ℚ) (cad : CadenceResult)
    (hne : gs ≠ ls) :
    ((classify_region_type scalePCs gs ls localConf cad).rtype =
        RegionType.modulation ↔
      (80/100 < localConf ∧ cad.detected = true ∧ 60/100 < cad.strength)) ∧
    (localConf = 80/100 →
      (classify_region_type scalePCs gs ls localConf cad).rtype ≠
        RegionType.modulation) ∧
    (cad.strength = 60/100 →
      (classify_region_type scalePCs gs ls localConf cad).rtype ≠
        RegionType.modulation) ∧
    (localConf = 801/1000 → cad.detected = true → cad.strength = 601/1000 →
      (classify_region_type scalePCs gs ls localConf cad).rtype =
        RegionType.modulation) := by
  have hmain : (classify_region_type scalePCs gs ls localConf cad).rtype =
      RegionType.modulation ↔
      (80/100 < localConf ∧ cad.detected = true ∧ 60/100 < cad.strength) := by
    unfold classify_region_type
    rw [if_neg hne]
    by_cases h : 80/100 < localConf ∧ cad.detected = true ∧ 60/100 < cad.strength
    · rw [if_pos h]
      simpa using h
    · rw [if_neg h]
      constructor
      · intro hcon
        cases hcon
      · intro hcon
        exact absurd hcon h
  refine ⟨hmain, ?_, ?_, ?_⟩
  · intro hc hcon
    have := hmain.mp hcon
    rw [hc] at this
    exact lt_irrefl _ this.1
  · intro hc hcon
    have := hmain.mp hcon
    rw [hc] at this
    exact lt_irrefl _ this.2.2
  · intro h1 h2 h3
    refine hmain.mpr ⟨by rw [h1]; norm_num, h2, by rw [h3]; norm_num⟩

/-- Claim C5: the global PitchClassVector produced by the streaming
aggregator's running sum (accumulated per-chunk frame sums divided by the
accumulated frame count) equals the column mean of the concatenation of
all the per-chunk chroma matrices, for every extractor, threshold, chunk
size and signal. -/
theorem C5_streaming_equals_concat_mean (extract : List ℚ → List (PC → ℚ))
    (M cs : ℕ) (y : List ℚ) :
    globalVecStreamed extract M cs y = globalVecConcat extract M cs y := by
  funext i
  unfold globalVecStreamed globalVecConcat globalAccum columnMean
  rw [globalFold_fst, globalFold_snd_flatten]
  simp

/-- Claim C9: `get_parent_major_key` is total (never raises) and:
returns "N/A" on input "N/A"; returns the input unchanged when it has
fewer than two whitespace-separated parts; returns "N/A" when the mode
word is unknown or the music21 transposition fails; otherwise returns a
string ending in " Major". -/
theorem C9_parent_major_total
    (transposeDown : String → String → Option String) (s : String) :
    (s = "N/A" → get_parent_major_key transposeDown s = "N/A") ∧
    (s ≠ "N/A" → (pySplit s).length < 2 →
      get_parent_major_key transposeDown s = s) ∧
    (s ≠ "N/A" → 2 ≤ (pySplit s).length →
      MODE_TO_PARENT_INTERVAL.lookup ((pySplit s).getD 1 "") = none →
      get_parent_major_key transposeDown s = "N/A") ∧
    (∀ ivl, s ≠ "N/A" → 2 ≤ (pySplit s).length →
      MODE_TO_PARENT_INTERVAL.lookup ((pySplit s).getD 1 "") = some ivl →
      transposeDown ((pySplit s).getD 0 "") ivl = none →
      get_parent_major_key transposeDown s = "N/A") ∧
    (∀ ivl p, s ≠ "N/A" → 2 ≤ (pySplit s).length →
      MODE_TO_PARENT_INTERVAL.lookup ((pySplit s).getD 1 "") = some ivl →
      transposeDown ((pySplit s).getD 0 "") ivl = some p →
      ∃ q, get_parent_major_key transposeDown s = q ++ " Major") := by
  refine ⟨?_, ?_, ?_, ?_, ?_⟩
  · intro h
    unfold get_parent_major_key
    rw [if_pos h]
  · intro hna hlen
    unfold get_parent_major_key
    rw [if_neg hna, if_pos hlen]
  · intro hna hlen hlook
    unfold get_parent_major_key
    rw [if_neg hna, if_neg (not_lt.mpr hlen), hlook]
  · intro ivl hna hlen hlook htr
    unfold get_parent_major_key
    rw [if_neg hna, if_neg (not_lt.mpr hlen), hlook]
    simp only [htr]
  · intro ivl p hna hlen hlook htr
    unfold get_parent_major_key
    rw [if_neg hna, if_neg (not_lt.mpr hlen), hlook]
    simp only [htr]
    exact ⟨flatReplace p, rfl⟩

/-- Witness for C9 at concrete inputs: "E Phrygian" with a successful
transposition oracle yields a " Major" string; an unknown mode word
yields "N/A"; a one-token input is returned unchanged. -/
theorem C9_parent_major_total_witness :
    (∃ q, get_parent_major_key (fun _ _ => some "C") "E Phrygian" =
      q ++ " Major") ∧
    get_parent_major_key (fun _ _ => some "C") "E Blues" = "N/A" ∧
    get_parent_major_key (fun _ _ => some "C") "Chromatic" = "Chromatic" := by
  refine ⟨?_, ?_, ?_⟩
  · exact (C9_parent_major_total (fun _ _ => some "C") "E Phrygian").2.2.2.2
      "M3" "C" (by decide) (by decide) (by decide) rfl
  · exact (C9_parent_major_total (fun _ _ => some "C") "E Blues").2.2.1
      (by decide) (by decide) (by decide)
  · exact (C9_parent_major_total (fun _ _ => some "C") "Chromatic").2.1
      (by decide) (by decide)

/-- Witness for C3: distinct key strings with confidence 0.801, cadence
detected, strength 0.601 classify as `modulation`. -/
theorem C3_modulation_iff_witness :
    (classify_region_type (fun _ => ∅) "C major" "A minor" (801/1000)
      ⟨true, 601/1000⟩).rtype = RegionType.modulation :=
  (C3_modulation_iff (fun _ => ∅) "C major" "A minor" (801/1000)
    ⟨true, 601/1000⟩ (by decide)).2.2.2 rfl rfl rfl

/-- Claim C10: for every 12-bin input with non-negative entries and
norm at least 1e-6 (squared norm at least 1e-12), every similarity score
recorded in guess_mode's match-scores dictionary lies in [0,1] — stated
both on the exact encoding (`0 ≤ d` and `d² ≤ ‖v‖²‖t‖²`) and on the
represented real score `d/(‖v‖·‖t‖)`; rounding to 4 decimal places maps
[0,1] into [0,1], so the stored rounded values lie in [0,1] as well —
and the returned tonic equals the first whitespace-separated token of
the returned best-mode name. -/
theorem C10_scores_bounded_tonic_token (v : PC → ℚ) (hnn : ∀ i, 0 ≤ v i)
    (hnorm : 1/10^12 ≤ sumSq v) :
    (∀ e ∈ (guess_mode v).2.2,
      0 ≤ e.2.1 ∧ e.2.1 ^ 2 ≤ sumSq v * e.2.2 ∧
      0 ≤ realScore e.2.1 (sumSq v * e.2.2) ∧
      realScore e.2.1 (sumSq v * e.2.2) ≤ 1) ∧
    (guess_mode v).2.1 = (pySplit (guess_mode v).1).headD "" := by
  have hscores : ∀ e ∈ matchScores v,
      0 ≤ e.2.1 ∧ e.2.1 ^ 2 ≤ sumSq v * e.2.2 ∧
      0 ≤ realScore e.2.1 (sumSq v * e.2.2) ∧
      realScore e.2.1 (sumSq v * e.2.2) ≤ 1 := by
    intro e he
    rw [matchScores, List.mem_map] at he
    obtain ⟨c, _, rfl⟩ := he
    have h1 : 0 ≤ dotT v c := dotT_nonneg hnn c
    have h2 : dotT v c ^ 2 ≤ sumSq v * tSq c := csq v (templateVec c.1 c.2)
    refine ⟨h1, h2, ?_, (realScore_bounds h2).2⟩
    exact div_nonneg (by exact_mod_cast h1) (Real.sqrt_nonneg _)
  unfold guess_mode
  rw [if_neg (not_lt.mpr hnorm)]
  rcases hb : bestCand v with _ | c
  · exact ⟨hscores, na_headToken.symm⟩
  · refine ⟨hscores, ?_⟩
    show pcName c.1 = (pySplit (candName c)).headD ""
    rw [candName_tokens c]
    rfl

set_option maxRecDepth 100000 in
/-- Witness for C10 at the all-ones vector. -/
theorem C10_scores_bounded_tonic_token_witness :
    (guess_mode ones).2.1 = (pySplit (guess_mode ones).1).headD "" :=
  (C10_scores_bounded_tonic_token ones (fun _ => zero_le_one)
    (of_decide_eq_true (by with_unfolding_all rfl))).2

/-- Claim C7: degenerate input.  First conjunct (guess_mode, the key
estimator present in utils.py): every vector of near-zero norm — the
code's guard `‖v‖ < 1e-6`, i.e. squared norm < 1e-12 — yields the
sentinel ("N/A", "N/A", {}) and no exception (the embedding is total).
Second conjunct (the spec-modelled pipeline estimator find_best_key):
whenever the input's variance vanishes — in particular for every
zero-norm vector — all 24 correlations are non-finite and the sentinel
"N/A" estimate with encoded confidence 0 is returned. -/
theorem C7_degenerate_sentinel :
    (∀ v : PC → ℚ, sumSq v < 1/10^12 → guess_mode v = ("N/A", "N/A", [])) ∧
    (∀ majP minP v : PC → ℚ, sumSq (centered v) = 0 →
      find_best_key majP minP v = naEstimate ∧
      naEstimate.confEnc = none ∧ confReal naEstimate.confEnc = 0) := by
  constructor
  · intro v h
    unfold guess_mode
    rw [if_pos h]
  · intro majP minP v h
    have hnone : fbkBest majP minP v = none := by
      unfold fbkBest chooseFirst
      apply foldl_chooseStep_all_not_ok
      intro x _
      have hz : fbkDenSq majP minP v x = 0 := by
        unfold fbkDenSq pearsonDenSq
        rw [h, zero_mul]
      simp [fbkOkB, hz]
    refine ⟨?_, rfl, rfl⟩
    unfold find_best_key
    rw [hnone]

/-- Witness for C7 at the zero vector. -/
theorem C7_degenerate_sentinel_witness :
    guess_mode (fun _ => 0) = ("N/A", "N/A", []) ∧
    find_best_key ones ones (fun _ => 0) = naEstimate := by
  constructor
  · exact C7_degenerate_sentinel.1 (fun _ => 0)
      (of_decide_eq_true (by with_unfolding_all rfl))
  · exact (C7_degenerate_sentinel.2 ones ones (fun _ => 0)
      (of_decide_eq_true (by with_unfolding_all rfl))).1

/-- Claim C4: in the global pass every non-empty chunk below the minimum
sample count `M` is zero-padded up to exactly `M` (first conjunct), every
non-empty chunk contributes its extracted frame count to the accumulated
total — no chunk is skipped (second conjunct) — and for a signal of
exactly `M-1` mono samples the accumulated frame count is non-zero and
the global pass succeeds rather than failing (third and fourth
conjuncts).  `hext` states the extractor contract: on an input of the
minimum length `M` it produces at least one frame. -/
theorem C4_short_chunks_padded (extract : List ℚ → List (PC → ℚ))
    (M cs : ℕ) (y : List ℚ)
    (hext : ∀ z : List ℚ, z.length = M → 0 < (extract z).length)
    (hcs : 0 < cs) (hM : 2 ≤ M) (hy : y.length = M - 1) :
    (∀ c : List ℚ, c.length < M →
      padTo M c = c ++ List.replicate (M - c.length) 0 ∧
      (padTo M c).length = M) ∧
    (globalAccum extract M cs y).2 =
      ((chunksOf cs y).map fun c =>
        if 0 < c.length then (extract (padTo M c)).length else 0).sum ∧
    0 < (globalAccum extract M cs y).2 ∧
    run_global_analysis extract M cs y =
      Except.ok (globalVecStreamed extract M cs y) := by
  have hpad : ∀ c : List ℚ, c.length < M →
      padTo M c = c ++ List.replicate (M - c.length) 0 ∧
      (padTo M c).length = M := fun c hc =>
    ⟨by unfold padTo; rw [if_pos hc], padTo_length_of_short hc⟩
  have hsnd : (globalAccum extract M cs y).2 =
      ((chunksOf cs y).map fun c =>
        if 0 < c.length then (extract (padTo M c)).length else 0).sum := by
    unfold globalAccum
    rw [globalFold_snd]
    simp
  have hpos : 0 < (globalAccum extract M cs y).2 := by
    cases y with
    | nil =>
      exfalso
      simp at hy
      omega
    | cons x xs =>
      rw [hsnd]
      rw [show chunksOf cs (x :: xs) =
        (x :: xs).take cs ::
          chunksOfAux cs xs.length ((x :: xs).drop cs) from rfl]
      rw [List.map_cons, List.sum_cons]
      have hlen1 : 0 < ((x :: xs).take cs).length := by
        rw [List.length_take]
        simp only [List.length_cons]
        omega
      have hlenlt : ((x :: xs).take cs).length < M := by
        rw [List.length_take]
        have hl : (x :: xs).length = M - 1 := hy
        omega
      rw [if_pos hlen1]
      have := hext (padTo M ((x :: xs).take cs)) (padTo_length_of_short hlenlt)
      omega
  refine ⟨hpad, hsnd, hpos, ?_⟩
  unfold run_global_analysis
  rw [if_neg (Nat.pos_iff_ne_zero.mp hpos)]

/-- Witness for C4: a 1-sample signal with `M = 2` is padded and still
produces a positive frame count and a successful global pass. -/
theorem C4_short_chunks_padded_witness :
    0 < (globalAccum (fun z => if z.length = 2 then [fun _ => (1:ℚ)] else [])
      2 5 [(1:ℚ)]).2 ∧
    run_global_analysis (fun z => if z.length = 2 then [fun _ => (1:ℚ)] else [])
      2 5 [(1:ℚ)] =
      Except.ok (globalVecStreamed
        (fun z => if z.length = 2 then [fun _ => (1:ℚ)] else []) 2 5 [(1:ℚ)]) := by
  have h := C4_short_chunks_padded
    (fun z => if z.length = 2 then [fun _ => (1:ℚ)] else []) 2 5 [(1:ℚ)]
    (fun z hz => by simp [hz]) (by norm_num) (by norm_num) (by simp)
  exact ⟨h.2.2.1, h.2.2.2⟩

/-- Claim C6: the local-segment analysis fails with the empty/out-of-range
validation error whenever the resolved sample count is ≤ 0, and fails
with the too-short validation error whenever the segment takes the
direct (non-streamed) path and the directly-read mono segment is shorter
than `M`; in both cases the result is the error for every key-estimation
function, i.e. no key estimation is performed. -/
theorem C6_local_segment_errors (M cs : ℕ) (streamThr : ℚ)
    (readAt : ℤ → ℕ → List ℚ) (extract : List ℚ → List (PC → ℚ))
    (duration startTime : ℚ) (endTime : Option ℚ) (toSamples : ℚ → ℤ) :
    (localNumToRead toSamples duration startTime endTime ≤ 0 →
      ∀ estimate, run_local_analysis M cs streamThr readAt extract estimate
        duration startTime endTime toSamples =
        Except.error LocalErr.emptySegment) ∧
    (0 < localNumToRead toSamples duration startTime endTime →
      segEndSec duration endTime - startTime ≤ streamThr →
      (readAt (toSamples startTime)
          (localNumToRead toSamples duration startTime endTime).toNat).length < M →
      ∀ estimate, run_local_analysis M cs streamThr readAt extract estimate
        duration startTime endTime toSamples =
        Except.error LocalErr.tooShort) := by
  constructor
  · intro h estimate
    unfold run_local_analysis
    rw [if_pos h]
  · intro h1 h2 h3 estimate
    unfold run_local_analysis
    rw [if_neg (not_le.mpr h1), if_neg (not_lt.mpr h2), if_pos h3]

/-- Witness for C6: a 10-second segment (below the streaming threshold)
whose direct read returns 3 mono samples with `M = 4096` fails with the
too-short error; a request resolving to 0 samples fails with the
empty-segment error. -/
theorem C6_local_segment_errors_witness :
    run_local_analysis 4096 110250 60 (fun _ _ => [1, 2, 3]) (fun _ => [])
      (fun _ => naEstimate) 10 0 none (fun q => q.num) =
      Except.error LocalErr.tooShort ∧
    run_local_analysis 4096 110250 60 (fun _ _ => [1, 2, 3]) (fun _ => [])
      (fun _ => naEstimate) 10 0 (some 0) (fun q => q.num) =
      Except.error LocalErr.emptySegment := by
  constructor
  · exact (C6_local_segment_errors 4096 110250 60 (fun _ _ => [1, 2, 3])
      (fun _ => []) 10 0 none (fun q => q.num)).2
      (of_decide_eq_true (by with_unfolding_all rfl))
      (of_decide_eq_true (by with_unfolding_all rfl))
      (by norm_num) (fun _ => naEstimate)
  · exact (C6_local_segment_errors 4096 110250 60 (fun _ _ => [1, 2, 3])
      (fun _ => []) 10 0 (some 0) (fun q => q.num)).1
      (of_decide_eq_true (by with_unfolding_all rfl)) (fun _ => naEstimate)

/-- Claim C1 (Key Estimator, modelled from the spec since
`utils.find_best_key` is not in the provided source tree): the estimator
scores exactly the 24 candidates — 12 tonics x {major, minor}, tonic
outer — with the Pearson correlation (encoded as the pair
`(fbkNum, fbkDenSq)` representing `r = num/√denSq`); the selected
candidate has a finite correlation at least that of every finite-scoring
candidate, every finite-scoring candidate strictly before it in
iteration order scores strictly lower (ties broken by iteration order),
the reported confidence encodes `(r+1)/2` for the winning `r`, and the
represented confidence always lies in [0,1]. -/
theorem C1_key_estimator_selection (majP minP v : PC → ℚ) :
    (fbkCands.length = 24 ∧
      fbkCands = [(0, KMode.major), (0, KMode.minor),
        (1, KMode.major), (1, KMode.minor), (2, KMode.major), (2, KMode.minor),
        (3, KMode.major), (3, KMode.minor), (4, KMode.major), (4, KMode.minor),
        (5, KMode.major), (5, KMode.minor), (6, KMode.major), (6, KMode.minor),
        (7, KMode.major), (7, KMode.minor), (8, KMode.major), (8, KMode.minor),
        (9, KMode.major), (9, KMode.minor), (10, KMode.major), (10, KMode.minor),
        (11, KMode.major), (11, KMode.minor)]) ∧
    (∀ c, fbkBest majP minP v = some c →
      c ∈ fbkCands ∧
      fbkDenSq majP minP v c ≠ 0 ∧
      (∀ x ∈ fbkCands, fbkDenSq majP minP v x ≠ 0 →
        fbkR majP minP v x ≤ fbkR majP minP v c) ∧
      (∀ u w, fbkCands = u ++ c :: w → c ∉ u → c ∉ w →
        ∀ x ∈ u, fbkDenSq majP minP v x ≠ 0 →
          fbkR majP minP v x < fbkR majP minP v c) ∧
      find_best_key majP minP v =
        ⟨pcName c.1, modeLabel c.2, pcName c.1 ++ " " ++ sigWord c.2,
          some (fbkNum majP minP v c, fbkDenSq majP minP v c)⟩) ∧
    (fbkBest majP minP v = none → find_best_key majP minP v = naEstimate) ∧
    (0 ≤ confReal (find_best_key majP minP v).confEnc ∧
      confReal (find_best_key majP minP v).confEnc ≤ 1) := by
  have hok := fbk_hok majP minP v
  have hlt := fbk_hlt majP minP v
  refine ⟨⟨by decide, by decide⟩, ?_, ?_, ?_⟩
  · intro c hc
    have hcf : List.foldl (chooseStep (fbkOkB majP minP v)
        (fbkLtB majP minP v)) none fbkCands = some c := hc
    have hmem : c ∈ fbkCands := by
      rcases foldl_chooseStep_mem none c hcf with hm | hs
      · exact hm
      · cases hs
    have hP : fbkDenSq majP minP v c ≠ 0 :=
      foldl_chooseStep_P hok hlt fbkCands none (fun _ h => by cases h) c hcf
    refine ⟨hmem, hP, ?_, ?_, ?_⟩
    · exact fun x hx hPx =>
        foldl_chooseStep_max hok hlt fbkCands none c
          (fun _ h => by cases h) hcf x hx hPx
    · intro u w hsplit hcu hcw x hxu hPx
      have hcf2 : chooseFirst (fbkOkB majP minP v) (fbkLtB majP minP v)
          (u ++ c :: w) = some c := by
        rw [← hsplit]
        exact hc
      exact chooseFirst_first hok hlt u w c hcu hcw hcf2 x hxu hPx
    · unfold find_best_key
      rw [hc]
  · intro h
    unfold find_best_key
    rw [h]
  · cases hb : fbkBest majP minP v with
    | none =>
      unfold find_best_key
      rw [hb]
      show (0:ℝ) ≤ confReal none ∧ confReal none ≤ 1
      unfold confReal
      norm_num
    | some c =>
      unfold find_best_key
      rw [hb]
      exact confReal_bounds (fbkNum_sq_le majP minP v c)

set_option maxRecDepth 200000 in
/-- Witness for C1: with the weighted C-major/C-minor scale templates as
profiles and the major profile itself as input, the estimator picks
tonic C, mode major (label "Ionian"), with encoded correlation 1
(`77/75 / √(5929/5625) = 1`, confidence 1). -/
theorem C1_key_estimator_selection_witness :
    fbkCands.length = 24 ∧
    ((0 : PC), KMode.major) ∈ fbkCands ∧
    find_best_key (templateVec 0 0) (templateVec 0 1) (templateVec 0 0) =
      ⟨"C", "Ionian", "C major", some (77/75, 5929/5625)⟩ := by
  have h := C1_key_estimator_selection (templateVec 0 0) (templateVec 0 1)
    (templateVec 0 0)
  have hb : fbkBest (templateVec 0 0) (templateVec 0 1) (templateVec 0 0) =
      some ((0 : PC), KMode.major) := by with_unfolding_all rfl
  have h2 := h.2.1 _ hb
  refine ⟨h.1.1, h2.1, ?_⟩
  rw [h2.2.2.2.2]
  with_unfolding_all rfl

set_option maxRecDepth 120000 in
/-- Counterexample to claim C8 as stated: the all-ones vector is
non-degenerate (norm √12 ≥ 1e-6) and is fixed by rotation, so at k = 1
guess_mode returns tonic "C" both before and after rotating, while the
claim requires the rotated tonic to be `pcName (0+1) = "C#"`; the mode
is unchanged as claimed but the tonic is not rotated (the all-ones
vector ties all 12 tonics of each scale class and the loop's
first-wins tie-break is not rotation-equivariant). -/
theorem C8_counterexample :
    rotv 1 ones = ones ∧
    (guess_mode ones).1 = "C Major" ∧
    (guess_mode ones).2.1 = "C" ∧
    (guess_mode (rotv 1 ones)).2.1 = "C" ∧
    pcName ((0 : PC) + 1) = "C#" ∧
    ("C" : String) ≠ "C#" := by
  have hrot : rotv 1 ones = ones := rfl
  have h1 : (guess_mode ones).1 = "C Major" := by with_unfolding_all rfl
  have h2 : (guess_mode ones).2.1 = "C" := by with_unfolding_all rfl
  refine ⟨hrot, h1, h2, ?_, by decide, by decide⟩
  rw [hrot]
  exact h2

/-- Claim C8, amended: rotation equivariance of guess_mode holds for
every non-degenerate vector whose best-scoring candidate is unique
(strictly dominates all other 83 candidates): rotating the vector by k
semitones rotates the winning tonic by k and keeps the mode; with ties
the first-wins iteration order can break equivariance
(see the counterexample). -/
theorem C8_rotation_equivariance (v : PC → ℚ) (k : PC) (cstar : Cand)
    (hdeg : 1/10^12 ≤ sumSq v)
    (huniq : ∀ x ∈ candList, x ≠ cstar → simLtB v x cstar = true) :
    bestCand v = some cstar ∧
    bestCand (rotv k v) = some (cstar.1 + k, cstar.2) ∧
    guess_mode v = (candName cstar, pcName cstar.1, matchScores v) ∧
    guess_mode (rotv k v) =
      (candName (cstar.1 + k, cstar.2), pcName (cstar.1 + k),
        matchScores (rotv k v)) ∧
    (pySplit (guess_mode (rotv k v)).1).getD 1 "" =
      (pySplit (guess_mode v).1).getD 1 "" ∧
    (guess_mode (rotv k v)).2.1 = pcName (cstar.1 + k) := by
  have hv : 0 < sumSq v := lt_of_lt_of_le (by norm_num) hdeg
  have huniqR : ∀ x ∈ candList, x ≠ cstar → simReal v x < simReal v cstar :=
    fun x hx hne => (simLtB_iff hv x cstar).mp (huniq x hx hne)
  have hbest1 : bestCand v = some cstar := bestCand_eq_of_uniq hv cstar huniqR
  have hvrot : sumSq (rotv k v) = sumSq v := sumSq_rotv k v
  have hvr : 0 < sumSq (rotv k v) := by rw [hvrot]; exact hv
  have hdegr : 1/10^12 ≤ sumSq (rotv k v) := by rw [hvrot]; exact hdeg
  have huniqR' : ∀ x ∈ candList, x ≠ (cstar.1 + k, cstar.2) →
      simReal (rotv k v) x < simReal (rotv k v) (cstar.1 + k, cstar.2) := by
    intro x hx hne
    have hxeq : x = ((x.1 - k) + k, x.2) := by
      rw [sub_add_cancel]
    have hyne : ((x.1 - k, x.2) : Cand) ≠ cstar := by
      intro h
      apply hne
      rw [hxeq, ← h]
    calc simReal (rotv k v) x
        = simReal (rotv k v) ((x.1 - k, x.2).1 + k, (x.1 - k, x.2).2) := by
          rw [← hxeq]
      _ = simReal v (x.1 - k, x.2) := simReal_rotv v k (x.1 - k, x.2)
      _ < simReal v cstar := huniqR _ (mem_candList _) hyne
      _ = simReal (rotv k v) (cstar.1 + k, cstar.2) :=
          (simReal_rotv v k cstar).symm
  have hbest2 : bestCand (rotv k v) = some (cstar.1 + k, cstar.2) :=
    bestCand_eq_of_uniq hvr _ huniqR'
  have hg1 : guess_mode v = (candName cstar, pcName cstar.1, matchScores v) := by
    unfold guess_mode
    rw [if_neg (not_lt.mpr hdeg), hbest1]
  have hg2 : guess_mode (rotv k v) =
      (candName (cstar.1 + k, cstar.2), pcName (cstar.1 + k),
        matchScores (rotv k v)) := by
    unfold guess_mode
    rw [if_neg (not_lt.mpr hdegr), hbest2]
  refine ⟨hbest1, hbest2, hg1, hg2, ?_, ?_⟩
  · rw [hg1, hg2]
    show (pySplit (candName (cstar.1 + k, cstar.2))).getD 1 "" =
      (pySplit (candName cstar)).getD 1 ""
    rw [candName_tokens, candName_tokens]
    rfl
  · rw [hg2]

set_option maxRecDepth 200000 in
/-- Witness for C8 (amended) at the C-major weighted template, whose
best candidate (C, Major) is unique, and k = 5: the winner's tonic
rotates from C to F. -/
theorem C8_rotation_equivariance_witness :
    bestCand (templateVec 0 0) = some (0, 0) ∧
    bestCand (rotv 5 (templateVec 0 0)) = some ((0 : PC) + 5, 0) ∧
    (guess_mode (rotv 5 (templateVec 0 0))).2.1 = pcName ((0 : PC) + 5) := by
  have h := C8_rotation_equivariance (templateVec 0 0) 5 (0, 0)
    (of_decide_eq_true (by with_unfolding_all rfl))
    (of_decide_eq_true (by with_unfolding_all rfl))
  exact ⟨h.1, h.2.1, h.2.2.2.2.2⟩

end MusicToolkit
